import Mathlib

/-!
Verification of the reStructuredText-flavored rule extensions in
`sphinx_mdinclude/parse.py` (classes `RestBlockParser` and `RestInlineParser`).

The source file declares regular-expression patterns and match handlers that
extend a base Markdown parser.  We embed each pattern as an executable matcher
on `List Char`, mirroring the Python `re` semantics of the concrete pattern
(anchored match at the cursor, non-greedy repetition = earliest stop, greedy
repetition = latest stop with backtracking, `.` does not cross a newline unless
the pattern is compiled with DOTALL).  Handlers are embedded as plain functions
from the match's capture groups to the token/element they build.

The base parser being extended (the external `mistune` package) is out of
scope; where its data is needed (the inherited rule-name lists, the HTML
tag-name/attribute fragments) we either parametrize over it or model it from
the specification, as marked in doc comments.
-/

/-- Python `\s` on ASCII input: space, tab, newline, carriage return,
vertical tab, form feed. -/
def isPyWhitespace (c : Char) : Bool :=
  c = ' ' || c = '\t' || c = '\n' || c = '\r' || c = '\x0b' || c = '\x0c'

/-- `beginsWith p s` holds when the word `p` occurs at the head of `s`
(the matcher for a literal alternative inside a lookahead). -/
def beginsWith : List Char → List Char → Bool
  | [], _ => true
  | _ :: _, [] => false
  | p :: ps, c :: cs => p = c && beginsWith ps cs

/-- Modelled from the spec: the external driver's matching protocol — the
driver "repeatedly asks: does the rule table, tried in order, produce a match
at the current cursor?; the first rule with a successful match wins".  A rule
is a name paired with a pattern returning the matched payload, and the table
is consulted front to back. -/
def tryRules {α : Type} : List (String × (List Char → Option α)) → List Char →
    Option (String × α)
  | [], _ => none
  | (n, p) :: rest, s =>
    match p s with
    | some v => some (n, v)
    | none => tryRules rest s

namespace RestBlockParser

/-- Block-level token, `Token = Dict[str, Any]` specialized to the shape the
handlers in the source build: a `type` tag and a `text` payload. -/
structure Token where
  type : String
  text : String
deriving DecidableEq

/-- Scanner for the tail of `DIRECTIVE = ^( *\.\..*?)\n(?=\S)` after the
leading spaces and `..` have been consumed: the non-greedy `.*?` (DOTALL, so
it may cross newlines) stops at the earliest `\n` that is followed by a
non-whitespace character; the returned chars are the part of group 1 after
the `..`.  `none` when no such boundary exists in the remaining text. -/
def scanToBoundary : List Char → Option (List Char)
  | [] => none
  | c :: rest =>
    if c = '\n' ∧ rest ≠ [] ∧ isPyWhitespace (rest.headD ' ') = false then some []
    else (scanToBoundary rest).map (c :: ·)

/-- `DIRECTIVE = re.compile(r"^( *\.\..*?)\n(?=\S)", re.DOTALL | re.MULTILINE)`
matched at a line start: greedy ` *` takes the leading spaces, then `\.\.` is
required, then `.*?` runs to the earliest `\n(?=\S)` boundary.  Returns
group 1 on success. -/
def directiveMatch (s : List Char) : Option (List Char) :=
  let sp := s.takeWhile (· = ' ')
  let r := s.drop sp.length
  if r.take 2 = ['.', '.'] then
    (scanToBoundary (r.drop 2)).map (fun t => sp ++ '.' :: '.' :: t)
  else none

/-- `ONELINE_DIRECTIVE = re.compile(r"^( *\.\..*?)$", re.DOTALL | re.MULTILINE)`
matched at a line start: leading spaces, `..`, then the non-greedy `.*?`
stops at the first position where the MULTILINE `$` holds, i.e. before the
first `\n` or at end of input.  Returns group 1. -/
def onelineDirectiveMatch (s : List Char) : Option (List Char) :=
  let sp := s.takeWhile (· = ' ')
  let r := s.drop sp.length
  if r.take 2 = ['.', '.'] then
    some (sp ++ '.' :: '.' :: (r.drop 2).takeWhile (· ≠ '\n'))
  else none

/-- `REST_CODE_BLOCK = re.compile(r"^::\s*$", re.DOTALL | re.MULTILINE)`
matched at a line start: `::`, then `\s*` runs over same-line whitespace up to
a MULTILINE `$` (before a `\n` or at end of input).  Returns the matched
text. -/
def restCodeBlockMatch (s : List Char) : Option (List Char) :=
  if s.take 2 = [':', ':'] then
    let rest := s.drop 2
    let w := rest.takeWhile (fun c => isPyWhitespace c && c ≠ '\n')
    if rest.drop w.length = [] ∨ (rest.drop w.length).head? = some '\n' then
      some (':' :: ':' :: w)
    else none
  else none

/-- `parse_directive`: `return ("type": "directive", "text": match.group(1))`
as a record; the argument is group 1 of the `DIRECTIVE` match. -/
def parse_directive (g1 : List Char) : Token :=
  ⟨"directive", String.mk g1⟩

/-- `parse_oneline_directive`: reuses the directive output — same `type` tag
`"directive"`, `text` = group 1 of the `ONELINE_DIRECTIVE` match. -/
def parse_oneline_directive (g1 : List Char) : Token :=
  ⟨"directive", String.mk g1⟩

/-- `parse_rest_code_block`: `type` tag `"rest_code_block"`, empty text. -/
def parse_rest_code_block : Token :=
  ⟨"rest_code_block", ""⟩

/-- `DEFAULT_RULES = BlockParser.DEFAULT_RULES + ("directive",
"oneline_directive", "rest_code_block")`, parametrized over the inherited
base-grammar rule-name list (external to this repository). -/
def DEFAULT_RULES (baseRules : List String) : List String :=
  baseRules ++ ["directive", "oneline_directive", "rest_code_block"]

/-- The active block rule table with patterns attached, in `DEFAULT_RULES`
order: the inherited base table first, then the three new rules with the
patterns this source declares for them. -/
def ruleTable (base : List (String × (List Char → Option (List Char)))) :
    List (String × (List Char → Option (List Char))) :=
  base ++ [("directive", directiveMatch),
           ("oneline_directive", onelineDirectiveMatch),
           ("rest_code_block", restCodeBlockMatch)]

end RestBlockParser

namespace RestInlineParser

/-- Inline element, `Element = Tuple[str, ...]` specialized to the pairs the
handlers under verification build: a tag and one payload string. -/
abbrev Element : Type := String × String

/-- The explicit character class of `TEXT = r"^[\s\S]+?(?=[\\<!\[:_*`~ ]|https?://| {2,}\n|$)"`
(source comment: "add colon and space as special text"): backslash, `<`, `!`,
`[`, `:`, `_`, `*`, backtick, `~`, and a single space. -/
def isStopChar (c : Char) : Bool :=
  c = '\\' || c = '<' || c = '!' || c = '[' || c = ':' || c = '_' ||
  c = '*' || c = '`' || c = '~' || c = ' '

/-- The lookahead of `TEXT`, evaluated at the unconsumed suffix: the character
class, a bare `http://` or `https://`, the ` {2,}\n` alternative (subsumed by
the single space in the class, since any position starting two-spaces-newline
starts with a space), or `$` (end of the span; Python `$` without MULTILINE
also matches just before a span-final newline). -/
def textStopHere (s : List Char) : Bool :=
  match s with
  | [] => true
  | c :: rest =>
    (c = '\n' && rest.isEmpty) || isStopChar c ||
    beginsWith "http://".toList (c :: rest) ||
    beginsWith "https://".toList (c :: rest)

/-- Extension loop of the non-greedy `[\s\S]+?`: after the mandatory first
character, keep consuming (any character, newline included) until the
lookahead `textStopHere` holds at the unconsumed suffix. -/
def textTake : List Char → List Char
  | [] => []
  | d :: rest => if textStopHere (d :: rest) then [] else d :: textTake rest

/-- `TEXT` matched at the cursor: at least one character is consumed
unconditionally (`+?` checks the lookahead only after one repetition), then
`textTake` extends to the earliest stop. -/
def textMatch : List Char → Option (List Char)
  | [] => none
  | c :: rest => some (c :: textTake rest)

/-- Scanner for the non-greedy `(.*?)` of `INLINE_MATH = r"`\$((.*?)\$`)"`:
the expression stops at the earliest `$` that is immediately followed by a
backtick; `.` does not cross a newline. -/
def mathScan : List Char → Option (List Char)
  | [] => none
  | c :: rest =>
    if c = '$' ∧ rest.head? = some '`' then some []
    else if c = '\n' then none
    else (mathScan rest).map (c :: ·)

/-- `INLINE_MATH` matched at the cursor: a backtick, `$`, the non-greedy
expression, `$`, backtick.  Returns group 2 (the expression strictly between
the `$` delimiters), which is what the handler consumes. -/
def inlineMathMatch (s : List Char) : Option (List Char) :=
  if s.take 2 = ['`', '$'] then mathScan (s.drop 2) else none

/-- `REST_LINK = r"`[^`]*?`_"` matched at the cursor: a backtick, a
non-greedy run of non-backtick characters (stopping at the first backtick,
the only position where the class run can end), a backtick, an underscore.
Returns the whole match (group 0). -/
def restLinkMatch (s : List Char) : Option (List Char) :=
  if s.head? = some '`' then
    let body := s.drop 1
    let code := body.takeWhile (· ≠ '`')
    if (body.drop code.length).take 2 = ['`', '_'] then
      some ('`' :: code ++ ['`', '_'])
    else none
  else none

/-- Scanner for a non-greedy `.*?` terminated by a backtick: minimal
non-newline run whose unconsumed suffix starts with a backtick. -/
def backtickScan : List Char → Option (List Char)
  | [] => none
  | c :: rest =>
    if c = '`' then some []
    else if c = '\n' then none
    else (backtickScan rest).map (c :: ·)

/-- Scanner for a non-greedy `.*?` terminated by a colon: minimal non-newline
run whose unconsumed suffix starts with a colon. -/
def colonScan : List Char → Option (List Char)
  | [] => none
  | c :: rest =>
    if c = ':' then some []
    else if c = '\n' then none
    else (colonScan rest).map (c :: ·)

/-- Backtracking scan for the first alternative of
`REST_ROLE = r":.*?:`.*?`|`[^`]+`:.*?:"` after its leading colon: find the
earliest `` :` `` whose inner `` .*?` `` part also succeeds, consuming
non-newline characters on the way (Python extends the outer `.*?` past a
`` :` `` whose continuation fails).  Returns the matched text after the
leading colon. -/
def roleAlt1Scan : List Char → Option (List Char)
  | [] => none
  | c :: rest =>
    (if c = ':' ∧ rest.head? = some '`' then
        (backtickScan (rest.drop 1)).map (fun inn => ':' :: '`' :: (inn ++ ['`']))
      else none).orElse
    (fun _ => if c = '\n' then none else (roleAlt1Scan rest).map (c :: ·))

/-- Second alternative of `REST_ROLE`: a backtick, a greedy `[^`]+` (the
maximal nonempty non-backtick run, the only one the following backtick
permits; the negated class does match newlines), a backtick, a colon, a
non-greedy `.*?`, a colon.  Returns the whole match. -/
def roleAlt2 (s : List Char) : Option (List Char) :=
  if s.head? = some '`' then
    let body := s.drop 1
    let code := body.takeWhile (· ≠ '`')
    if code.isEmpty then none
    else
      if (body.drop code.length).take 2 = ['`', ':'] then
        (colonScan ((body.drop code.length).drop 2)).map
          (fun role => '`' :: code ++ '`' :: ':' :: role ++ [':'])
      else none
  else none

/-- `REST_ROLE` matched at the cursor: the `:role:`code`` alternative first,
then the `` `code`:role: `` alternative.  Returns group 0, the entire matched
text. -/
def restRoleMatch (s : List Char) : Option (List Char) :=
  (if s.head? = some ':' then (roleAlt1Scan (s.drop 1)).map (':' :: ·)
   else none).orElse (fun _ => roleAlt2 s)

/-- `EOL_LITERAL_MARKER = r"(\s+)?::\s*$"` matched at the cursor: the
optional group takes the whitespace run in front of `::` (absent exactly when
the span starts with `::` directly), then `\s*$` requires the remainder of
the span to be whitespace.  Returns group 1. -/
def eolMatchAt (s : List Char) : Option (Option (List Char)) :=
  let ws := s.takeWhile isPyWhitespace
  let r := s.drop ws.length
  if r.take 2 = [':', ':'] ∧ (r.drop 2).all isPyWhitespace then
    some (if ws.isEmpty then none else some ws)
  else none

/-- Leftmost occurrence of `EOL_LITERAL_MARKER` in a span (the scanning the
inline engine performs to find where the rule applies). -/
def eolSearch : List Char → Option (Option (List Char))
  | [] => none
  | c :: rest => (eolMatchAt (c :: rest)).orElse (fun _ => eolSearch rest)

/-- `parse_rest_role`: `return "rest_role", match.group(0)`. -/
def parse_rest_role (g0 : List Char) : Element :=
  ("rest_role", String.mk g0)

/-- `parse_rest_link`: `return "rest_link", match.group(0)`. -/
def parse_rest_link (g0 : List Char) : Element :=
  ("rest_link", String.mk g0)

/-- `parse_inline_math`: `return "inline_math", match.group(2)`. -/
def parse_inline_math (g2 : List Char) : Element :=
  ("inline_math", String.mk g2)

/-- `parse_eol_literal_marker`: `marker = ":" if match.group(1) is None else ""`,
then `return "eol_literal_marker", marker`. -/
def parse_eol_literal_marker (g1 : Option (List Char)) : Element :=
  ("eol_literal_marker", if g1.isNone then ":" else "")

/-- `DEFAULT_RULES = ("inline_math", "rest_role", "rest_link",
"eol_literal_marker") + InlineParser.DEFAULT_RULES`, parametrized over the
inherited base-grammar inline rule-name list (external to this repository);
`"image_link"` is commented out in the source and hence absent. -/
def DEFAULT_RULES (baseRules : List String) : List String :=
  ["inline_math", "rest_role", "rest_link", "eol_literal_marker"] ++ baseRules

/-- Modelled from the spec: the base grammar's HTML tag-name fragment
(`HTML_TAGNAME`, imported by the source from the base parser, whose code is
not part of this repository): an ASCII letter followed by letters, digits or
hyphens. -/
def isTagStart (c : Char) : Bool :=
  ('a' ≤ c && c ≤ 'z') || ('A' ≤ c && c ≤ 'Z')

/-- Continuation character of a modelled HTML tag name. -/
def isTagChar (c : Char) : Bool :=
  isTagStart c || ('0' ≤ c && c ≤ '9') || c = '-'

/-- A wellformed modelled tag name: nonempty, a tag-start character followed
by tag characters. -/
def tagNameOk (n : List Char) : Bool :=
  match n with
  | [] => false
  | c :: rest => isTagStart c && rest.all isTagChar

/-- Greedy scan of a modelled tag name at the cursor: the maximal run, which
is the only run the regex engine can keep, since the character after a tag
name is never a tag character in the surrounding patterns. -/
def tagNameScan (s : List Char) : Option (List Char × List Char) :=
  match s with
  | c :: rest =>
    if isTagStart c then
      let more := rest.takeWhile isTagChar
      some (c :: more, rest.drop more.length)
    else none
  | [] => none

/-- Characters the modelled attribute run may contain. -/
def isAttrChar (c : Char) : Bool :=
  c ≠ '>' && c ≠ '<' && c ≠ '\n'

/-- Modelled from the spec: the base grammar's attribute fragment
(`HTML_ATTRIBUTES`, imported by the source from the base parser, whose code
is not part of this repository; the spec says only "an open tag").  Modelled
coarsely together with the adjacent `\s*` as a possibly-empty run of
characters other than angle brackets and newlines that begins with a
whitespace character and does not end with a slash (so the slash of a
self-closing tag is not swallowed). -/
def attrsOk (a : List Char) : Bool :=
  a.isEmpty || (isPyWhitespace a.headI && a.getLast? != some '/')

/-- Open tag `(?<!\\)<HTML_TAGNAME HTML_ATTRIBUTES \s*>` of `INLINE_HTML` at
the cursor (a span start, so the lookbehind is vacuous): `<`, the tag name,
the modelled attribute run, `>`.  Returns the tag name, the consumed text and
the rest. -/
def openTagScan (s : List Char) : Option (List Char × List Char × List Char) :=
  if s.head? = some '<' then
    match tagNameScan (s.drop 1) with
    | some (name, r1) =>
      let att := r1.takeWhile isAttrChar
      if (r1.drop att.length).head? = some '>' ∧ attrsOk att then
        some (name, '<' :: name ++ att ++ ['>'], (r1.drop att.length).drop 1)
      else none
    | none => none
  else none

/-- Close tag `(?<!\\)</HTML_TAGNAME\s*>` of `INLINE_HTML` at the cursor:
`</`, a tag name (the pattern does not tie it to the open tag's name),
optional whitespace, `>`.  Returns the consumed text and the rest. -/
def closeTagScan (s : List Char) : Option (List Char × List Char) :=
  if s.take 2 = ['<', '/'] then
    match tagNameScan (s.drop 2) with
    | some (name, r1) =>
      let ws := r1.takeWhile isPyWhitespace
      if (r1.drop ws.length).head? = some '>' then
        some ('<' :: '/' :: name ++ ws ++ ['>'], (r1.drop ws.length).drop 1)
      else none
    | none => none
  else none

/-- Length of the current line: how far the `(.*)` of the open-span
alternative may reach, since `.` does not cross a newline. -/
def lineLen (s : List Char) : Nat :=
  (s.takeWhile (· ≠ '\n')).length

/-- One candidate cut for the greedy `(.*)(?<!\\)</...>` continuation: cut the
contents at `k`, require the character before the cut (the final `>` of the
open tag when `k = 0`) not to be a backslash (the `(?<!\\)` lookbehind), and
parse a close tag at the cut.  Returns the length matched inside `rest`. -/
def closeAt (prev : Char) (rest : List Char) (k : Nat) : Option Nat :=
  if (rest.take k).getLast?.getD prev = '\\' then none
  else (closeTagScan (rest.drop k)).map (fun pr => k + pr.1.length)

/-- Greedy backtracking over the candidate cuts `k, k-1, ..., 0`: the largest
cut whose close tag parses wins, as for a greedy `(.*)`. -/
def closeSearch (prev : Char) (rest : List Char) : Nat → Option Nat
  | 0 => closeAt prev rest 0
  | k + 1 => (closeAt prev rest (k + 1)).orElse (fun _ => closeSearch prev rest k)

/-- Scanner for the non-greedy `[\s\S]+?\?>` tail of the processing
instruction alternative: minimal run (after the mandatory first character)
whose unconsumed suffix starts with `?>`. -/
def scanUntilPIEnd : List Char → Option (List Char)
  | [] => none
  | c :: rest =>
    if c = '?' ∧ rest.head? = some '>' then some []
    else (scanUntilPIEnd rest).map (c :: ·)

/-- Scanner for the non-greedy `[\s\S]+?>` tail of the doctype alternative. -/
def scanUntilGt : List Char → Option (List Char)
  | [] => none
  | c :: rest =>
    if c = '>' then some []
    else (scanUntilGt rest).map (c :: ·)

/-- Scanner for the non-greedy `[\s\S]+?\]\]>` tail of the CDATA
alternative. -/
def scanUntilCdataEnd : List Char → Option (List Char)
  | [] => none
  | c :: rest =>
    if c = ']' ∧ rest.take 2 = [']', '>'] then some []
    else (scanUntilCdataEnd rest).map (c :: ·)

/-- Self-closing alternative `(?<!\\)<HTML_TAGNAME HTML_ATTRIBUTES \s*/>`:
`<`, tag name, the modelled attribute run ending in the slash, `>`. -/
def selfClosingMatch (s : List Char) : Option (List Char) :=
  if s.head? = some '<' then
    match tagNameScan (s.drop 1) with
    | some (name, r1) =>
      let ra := r1.takeWhile isAttrChar
      if (r1.drop ra.length).head? = some '>' ∧ ra.getLast? = some '/' ∧
          (ra.dropLast.isEmpty = true ∨ isPyWhitespace ra.headI = true) then
        some ('<' :: name ++ ra ++ ['>'])
      else none
    | none => none
  else none

/-- Processing-instruction alternative `(?<!\\)<\?[\s\S]+?\?>`. -/
def piMatch : List Char → Option (List Char)
  | '<' :: '?' :: c :: rest =>
    (scanUntilPIEnd rest).map (fun t => '<' :: '?' :: c :: (t ++ ['?', '>']))
  | _ => none

/-- Doctype alternative `(?<!\\)<![A-Z][\s\S]+?>`. -/
def doctypeMatch : List Char → Option (List Char)
  | '<' :: '!' :: u :: c :: rest =>
    if 'A' ≤ u && u ≤ 'Z' then
      (scanUntilGt rest).map (fun t => '<' :: '!' :: u :: c :: (t ++ ['>']))
    else none
  | _ => none

/-- CDATA alternative `(?<!\\)<!\[CDATA[\s\S]+?\]\]>` (the pattern requires
no `[` after `CDATA`; the non-greedy run covers it). -/
def cdataMatch : List Char → Option (List Char)
  | '<' :: '!' :: '[' :: 'C' :: 'D' :: 'A' :: 'T' :: 'A' :: c :: rest =>
    (scanUntilCdataEnd rest).map (fun t =>
      '<' :: '!' :: '[' :: 'C' :: 'D' :: 'A' :: 'T' :: 'A' :: c ::
        (t ++ [']', ']', '>']))
  | _ => none

/-- `INLINE_HTML` matched at the cursor, alternatives in source order: the
open-span form `open tag (.*) close tag` (greedy `(.*)`, so the latest close
tag on the line wins), then self-closing tag, processing instruction,
doctype, CDATA.  Returns group 0, the single captured span. -/
def inlineHtmlMatch (s : List Char) : Option (List Char) :=
  (match openTagScan s with
   | some (_, consumed, rest) =>
     match closeSearch '>' rest (lineLen rest) with
     | some n => some (consumed ++ rest.take n)
     | none => none
   | none => none).orElse (fun _ =>
  (selfClosingMatch s).orElse (fun _ =>
  (piMatch s).orElse (fun _ =>
  (doctypeMatch s).orElse (fun _ => cdataMatch s))))

end RestInlineParser

/-- Stop characters of the TEXT boundary as the specification's sentence
lists them; written from the spec's words, to be compared with the
source-derived `RestInlineParser.isStopChar` — the spec's list has no single
space. -/
def specStopChar (c : Char) : Bool :=
  c = '\\' || c = '<' || c = '!' || c = '[' || c = ':' || c = '_' ||
  c = '*' || c = '`' || c = '~'

/-- The spec's "run of two-or-more spaces before a line end": a maximal run
of at least two spaces followed by a newline. -/
def specTwoSpacesEol (s : List Char) : Bool :=
  let r := s.takeWhile (· = ' ')
  decide (2 ≤ r.length) && ((s.drop r.length).head? == some '\n')

/-- The TEXT lookahead as the specification's sentence describes it; written
from the spec's words for comparison with `RestInlineParser.textStopHere`. -/
def specTextStopHere (s : List Char) : Bool :=
  match s with
  | [] => true
  | c :: rest =>
    (c = '\n' && rest.isEmpty) || specStopChar c ||
    beginsWith "http://".toList (c :: rest) ||
    beginsWith "https://".toList (c :: rest) || specTwoSpacesEol (c :: rest)

/-- Extension loop of the spec-described TEXT match. -/
def specTextTake : List Char → List Char
  | [] => []
  | d :: rest => if specTextStopHere (d :: rest) then [] else d :: specTextTake rest

/-- The TEXT match as the specification's sentence describes it; written from
the spec's words for comparison with `RestInlineParser.textMatch`. -/
def specTextMatch : List Char → Option (List Char)
  | [] => none
  | c :: rest => some (c :: specTextTake rest)

/-- Directive boundary scanner following the spec's words for the edge-case
policy "treat end-of-input as satisfying the boundary condition"; written
from the spec's words for comparison with
`RestBlockParser.scanToBoundary`. -/
def specScanToBoundary : List Char → Option (List Char)
  | [] => some []
  | c :: rest =>
    if c = '\n' ∧ rest ≠ [] ∧ isPyWhitespace (rest.headD ' ') = false then some []
    else (specScanToBoundary rest).map (c :: ·)

/-- The multi-line directive match as the specification describes it (end of
input counts as the terminating boundary); written from the spec's words for
comparison with `RestBlockParser.directiveMatch`. -/
def specDirectiveMatch (s : List Char) : Option (List Char) :=
  let sp := s.takeWhile (· = ' ')
  let r := s.drop sp.length
  if r.take 2 = ['.', '.'] then
    (specScanToBoundary (r.drop 2)).map (fun t => sp ++ '.' :: '.' :: t)
  else none

/-- A text has a directive boundary when some newline in it is immediately
followed by a non-whitespace character. -/
def hasBoundary : List Char → Bool
  | [] => false
  | c :: rest =>
    (c = '\n' && !rest.isEmpty && !isPyWhitespace (rest.headD ' ')) ||
    hasBoundary rest

/-- Position of a rule name in an active rule order (first occurrence);
`ruleIndex a rules < ruleIndex b rules` says `a` is tried before `b`. -/
def ruleIndex (a : String) : List String → Nat
  | [] => 0
  | b :: rest => if b = a then 0 else ruleIndex a rest + 1

theorem ruleIndex_append_of_mem {a : String} :
    ∀ {l : List String} (r : List String), a ∈ l →
      ruleIndex a (l ++ r) = ruleIndex a l := by
  intro l
  induction l with
  | nil => intro r h; cases h
  | cons b rest ih =>
    intro r h
    by_cases hb : b = a
    · simp [ruleIndex, hb]
    · have : a ∈ rest := by
        cases h with
        | head => exact absurd rfl hb
        | tail _ h' => exact h'
      simp [ruleIndex, hb, ih r this]

theorem ruleIndex_lt_length {a : String} :
    ∀ {l : List String}, a ∈ l → ruleIndex a l < l.length := by
  intro l
  induction l with
  | nil => intro h; cases h
  | cons b rest ih =>
    intro h
    by_cases hb : b = a
    · simp [ruleIndex, hb]
    · have : a ∈ rest := by
        cases h with
        | head => exact absurd rfl hb
        | tail _ h' => exact h'
      simp only [ruleIndex, hb, if_false, List.length_cons]
      exact Nat.succ_lt_succ (ih this)

theorem ruleIndex_append_of_not_mem {a : String} :
    ∀ {l : List String} (r : List String), a ∉ l →
      ruleIndex a (l ++ r) = l.length + ruleIndex a r := by
  intro l
  induction l with
  | nil => intro r _; simp [ruleIndex]
  | cons b rest ih =>
    intro r h
    have hb : b ≠ a := fun e => h (e ▸ List.mem_cons_self b rest)
    have hrest : a ∉ rest := fun m => h (List.mem_cons_of_mem b m)
    have step : ruleIndex a ((b :: rest) ++ r) = ruleIndex a (rest ++ r) + 1 := by
      simp [ruleIndex, hb]
    rw [step, ih r hrest, List.length_cons]
    omega

/-- The driver protocol consults rules strictly in table order: a successful
step comes from some rule `i` that matched, with every earlier rule failing
at the same cursor. -/
theorem tryRules_spec {α : Type} :
    ∀ (rules : List (String × (List Char → Option α))) (s : List Char)
      (n : String) (v : α),
      tryRules rules s = some (n, v) →
      ∃ i, ∃ h : i < rules.length,
        (rules.get ⟨i, h⟩).1 = n ∧ (rules.get ⟨i, h⟩).2 s = some v ∧
        ∀ j (hj : j < i), (rules.get ⟨j, Nat.lt_trans hj h⟩).2 s = none := by
  intro rules
  induction rules with
  | nil => intro s n v h; simp [tryRules] at h
  | cons q rest ih =>
    intro s n v h
    obtain ⟨nq, pq⟩ := q
    by_cases hp : ∃ w, pq s = some w
    · obtain ⟨w, hw⟩ := hp
      have hnv : (nq, w) = (n, v) := by
        simp only [tryRules, hw] at h
        exact Option.some.inj h
      cases hnv
      refine ⟨0, Nat.succ_pos _, rfl, hw, ?_⟩
      intro j hj
      exact absurd hj (Nat.not_lt_zero j)
    · have hnone : pq s = none := by
        cases hq : pq s with
        | none => rfl
        | some w => exact absurd ⟨w, hq⟩ hp
      have h' : tryRules rest s = some (n, v) := by
        simpa [tryRules, hnone] using h
      obtain ⟨i, hi, h1, h2, h3⟩ := ih s n v h'
      refine ⟨i + 1, Nat.succ_lt_succ hi, h1, h2, ?_⟩
      intro j hj
      cases j with
      | zero => simpa using hnone
      | succ j' => exact h3 j' (Nat.lt_of_succ_lt_succ hj)

theorem take_two_shape {l : List Char} {a b : Char} (h : l.take 2 = [a, b]) :
    l = a :: b :: l.drop 2 := by
  cases l with
  | nil => cases h
  | cons x xs =>
    cases xs with
    | nil => simp [List.take] at h
    | cons y ys =>
      simp [List.take] at h
      obtain ⟨rfl, rfl⟩ := h
      rfl

theorem head_shape {l : List Char} {a : Char} (h : l.head? = some a) :
    l = a :: l.tail := by
  cases l with
  | nil => cases h
  | cons x xs => simp at h; rw [h]; rfl

theorem drop_takeWhile_length (p : Char → Bool) (s : List Char) :
    s.drop (s.takeWhile p).length = s.dropWhile p := by
  induction s with
  | nil => rfl
  | cons c rest ih =>
    by_cases h : p c <;>
      simp [List.takeWhile_cons, List.dropWhile_cons, h, ih]

theorem mem_takeWhile_sat (p : Char → Bool) :
    ∀ (s : List Char) (c : Char), c ∈ s.takeWhile p → p c := by
  intro s
  induction s with
  | nil => intro c h; cases h
  | cons d rest ih =>
    intro c h
    by_cases hd : p d
    · rw [List.takeWhile_cons, if_pos hd] at h
      cases h with
      | head => exact hd
      | tail _ h' => exact ih c h'
    · rw [List.takeWhile_cons, if_neg hd] at h
      cases h

theorem head_dropWhile_not (p : Char → Bool) :
    ∀ s : List Char, s.dropWhile p = [] ∨
      ∃ c rest, s.dropWhile p = c :: rest ∧ p c = false := by
  intro s
  induction s with
  | nil => left; rfl
  | cons d rest ih =>
    by_cases hd : p d
    · rw [List.dropWhile_cons, if_pos hd]; exact ih
    · right
      exact ⟨d, rest, by rw [List.dropWhile_cons, if_neg hd],
        by simp [hd]⟩

/-- When every rule of a front segment fails at the cursor, the driver moves
on to the appended rules unchanged. -/
theorem tryRules_append_none {α : Type} :
    ∀ (l r : List (String × (List Char → Option α))) (s : List Char),
      (∀ p ∈ l, p.2 s = none) → tryRules (l ++ r) s = tryRules r s := by
  intro l
  induction l with
  | nil => intro r s _; rfl
  | cons q rest ih =>
    intro r s h
    obtain ⟨nq, pq⟩ := q
    have hq : pq s = none := h (nq, pq) (List.mem_cons_self _ _)
    have hrest : ∀ p ∈ rest, p.2 s = none :=
      fun p hp => h p (List.mem_cons_of_mem _ hp)
    simp only [List.cons_append, tryRules, hq]
    exact ih r s hrest

/-- Structure of a successful `ONELINE_DIRECTIVE` match: the matched text is
an initial segment of the input that contains no newline, and the match stops
exactly at the end of the first line. -/
theorem onelineDirectiveMatch_shape (s t : List Char)
    (h : RestBlockParser.onelineDirectiveMatch s = some t) :
    ∃ rest, t ++ rest = s ∧ (rest = [] ∨ ∃ r', rest = '\n' :: r') ∧
      t.all (· ≠ '\n') := by
  simp only [RestBlockParser.onelineDirectiveMatch] at h
  rw [drop_takeWhile_length] at h
  by_cases hc : (s.dropWhile (· = ' ')).take 2 = ['.', '.']
  · rw [if_pos hc] at h
    have ht := (Option.some.inj h).symm
    have hshape := take_two_shape hc
    refine ⟨((s.dropWhile (· = ' ')).drop 2).dropWhile (· ≠ '\n'), ?_, ?_, ?_⟩
    · rw [ht, List.append_assoc]
      have hmid : ('.' :: '.' ::
            ((s.dropWhile (· = ' ')).drop 2).takeWhile (· ≠ '\n'))
          ++ ((s.dropWhile (· = ' ')).drop 2).dropWhile (· ≠ '\n')
          = '.' :: '.' :: (s.dropWhile (· = ' ')).drop 2 := by
        simp [List.takeWhile_append_dropWhile]
      rw [hmid, ← hshape, List.takeWhile_append_dropWhile]
    · rcases head_dropWhile_not (· ≠ '\n') ((s.dropWhile (· = ' ')).drop 2)
        with hnil | ⟨c, r', hr, hcf⟩
      · left; exact hnil
      · right
        have hcn : c = '\n' := by simpa using hcf
        exact ⟨r', by rw [hr, hcn]⟩
    · rw [ht]
      simp only [List.all_append, List.all_cons, Bool.and_eq_true, List.all_eq_true]
      refine ⟨?_, by decide, by decide, ?_⟩
      · intro c hcm
        have := mem_takeWhile_sat (· = ' ') s c hcm
        have hc' : c = ' ' := by simpa using this
        subst hc'
        decide
      · intro c hcm
        exact mem_takeWhile_sat (· ≠ '\n') _ c hcm
  · rw [if_neg hc] at h
    cases h

/-- Claim C1, counterexample: in the block engine's active rule order the
directive rule is appended after the inherited base rules, so it is not tried
before a base `paragraph` rule, and an inherited rule that matches a line
beginning with `..` (the spec's footnote example) claims the match at a
cursor where the directive rule could also match. -/
theorem directive_rule_not_promoted_cex :
    ¬ (ruleIndex "directive" (RestBlockParser.DEFAULT_RULES ["paragraph"])
        < ruleIndex "paragraph" (RestBlockParser.DEFAULT_RULES ["paragraph"]))
    ∧ RestBlockParser.directiveMatch ".. [1] x\nY".toList = some ".. [1] x".toList
    ∧ tryRules
        (RestBlockParser.ruleTable
          [("footnote",
            fun s => if beginsWith "..".toList s then some ['f'] else none)])
        ".. [1] x\nY".toList
      = some ("footnote", ['f']) :=
  ⟨by decide, by decide, by decide⟩

/-- Claim C1 (amended): the three new block rules, `directive` first among
them, are appended after the inherited base-grammar rules, so every inherited
rule is tried before `directive`; a `..` line is claimed by the directive
rule exactly in the case where no inherited rule matches at the cursor. -/
theorem directive_rule_order :
    (∀ (base : List String) (r : String), r ∈ base → "directive" ∉ base →
      ruleIndex r (RestBlockParser.DEFAULT_RULES base)
        < ruleIndex "directive" (RestBlockParser.DEFAULT_RULES base))
    ∧ (∀ (baseT : List (String × (List Char → Option (List Char))))
        (s t : List Char),
        (∀ p ∈ baseT, p.2 s = none) →
        RestBlockParser.directiveMatch s = some t →
        tryRules (RestBlockParser.ruleTable baseT) s = some ("directive", t)) := by
  constructor
  · intro base r hr hd
    unfold RestBlockParser.DEFAULT_RULES
    rw [ruleIndex_append_of_mem _ hr, ruleIndex_append_of_not_mem _ hd]
    have h1 := ruleIndex_lt_length hr
    omega
  · intro baseT s t hb hm
    unfold RestBlockParser.ruleTable
    rw [tryRules_append_none _ _ _ hb]
    simp [tryRules, hm]

/-- Witness for the amended C1 theorem at concrete inputs. -/
theorem directive_rule_order_witness :
    ruleIndex "paragraph" (RestBlockParser.DEFAULT_RULES ["paragraph"])
      < ruleIndex "directive" (RestBlockParser.DEFAULT_RULES ["paragraph"])
    ∧ tryRules (RestBlockParser.ruleTable []) ".. a\nX".toList
      = some ("directive", ".. a".toList) :=
  ⟨directive_rule_order.1 ["paragraph"] "paragraph" (by decide) (by decide),
   directive_rule_order.2 [] ".. a\nX".toList ".. a".toList
     (by intro p hp; cases hp) (by decide)⟩

/-- Claim C4: the four promoted inline rules are a prefix of the active rule
order, in exactly the declared order `inline_math`, `rest_role`, `rest_link`,
`eol_literal_marker`, before every inherited base rule; and the matching
protocol consults rules strictly in that table order at every cursor: a
successful step is produced by some rule `i` with all earlier rules
failing. -/
theorem inline_promoted_rules_order :
    (∀ base : List String,
      (RestInlineParser.DEFAULT_RULES base).take 4
          = ["inline_math", "rest_role", "rest_link", "eol_literal_marker"]
        ∧ (RestInlineParser.DEFAULT_RULES base).drop 4 = base)
    ∧ (∀ (α : Type) (rules : List (String × (List Char → Option α)))
        (s : List Char) (n : String) (v : α),
        tryRules rules s = some (n, v) →
        ∃ i, ∃ h : i < rules.length,
          (rules.get ⟨i, h⟩).1 = n ∧ (rules.get ⟨i, h⟩).2 s = some v ∧
          ∀ j (hj : j < i), (rules.get ⟨j, Nat.lt_trans hj h⟩).2 s = none) := by
  constructor
  · intro base; exact ⟨rfl, rfl⟩
  · intro α rules s n v h
    exact tryRules_spec rules s n v h

/-- Witness for the C4 theorem at a concrete one-rule table. -/
theorem inline_promoted_rules_order_witness :
    ∃ i, ∃ h : i < ([("inline_math", RestInlineParser.inlineMathMatch)]).length,
      (([("inline_math", RestInlineParser.inlineMathMatch)]).get ⟨i, h⟩).1
          = "inline_math"
      ∧ (([("inline_math", RestInlineParser.inlineMathMatch)]).get ⟨i, h⟩).2
          "`$x^2$`".toList = some "x^2".toList
      ∧ ∀ j (hj : j < i),
          (([("inline_math", RestInlineParser.inlineMathMatch)]).get
              ⟨j, Nat.lt_trans hj h⟩).2 "`$x^2$`".toList = none :=
  inline_promoted_rules_order.2 (List Char)
    [("inline_math", RestInlineParser.inlineMathMatch)]
    "`$x^2$`".toList "inline_math" "x^2".toList (by decide)

/-- Claim C8: `oneline_directive` is tried directly after the multi-line
`directive` rule in the active order; when both could match, the driver
reports `directive`'s match; and the oneline handler produces a token of the
same shape and type as `parse_directive` — type `"directive"`, text the
matched line (an initial no-newline segment ending at the first line end). -/
theorem oneline_directive_order_and_shape :
    (∀ base : List String, "directive" ∉ base → "oneline_directive" ∉ base →
      ruleIndex "directive" (RestBlockParser.DEFAULT_RULES base)
        < ruleIndex "oneline_directive" (RestBlockParser.DEFAULT_RULES base))
    ∧ (∀ (baseT : List (String × (List Char → Option (List Char))))
        (s td : List Char),
        (∀ p ∈ baseT, p.2 s = none) →
        RestBlockParser.directiveMatch s = some td →
        tryRules (RestBlockParser.ruleTable baseT) s = some ("directive", td))
    ∧ (∀ s t : List Char, RestBlockParser.onelineDirectiveMatch s = some t →
        RestBlockParser.parse_oneline_directive t = ⟨"directive", String.mk t⟩
        ∧ RestBlockParser.parse_oneline_directive t = RestBlockParser.parse_directive t
        ∧ ∃ rest, t ++ rest = s ∧ (rest = [] ∨ ∃ r', rest = '\n' :: r') ∧
            t.all (· ≠ '\n')) := by
  refine ⟨?_, ?_, ?_⟩
  · intro base hd ho
    unfold RestBlockParser.DEFAULT_RULES
    rw [ruleIndex_append_of_not_mem _ hd, ruleIndex_append_of_not_mem _ ho]
    have h1 : ruleIndex "directive"
        ["directive", "oneline_directive", "rest_code_block"] = 0 := by decide
    have h2 : ruleIndex "oneline_directive"
        ["directive", "oneline_directive", "rest_code_block"] = 1 := by decide
    omega
  · intro baseT s td hb hm
    unfold RestBlockParser.ruleTable
    rw [tryRules_append_none _ _ _ hb]
    simp [tryRules, hm]
  · intro s t hm
    exact ⟨rfl, rfl, onelineDirectiveMatch_shape s t hm⟩

/-- Witness for the C8 theorem at concrete inputs. -/
theorem oneline_directive_order_and_shape_witness :
    ruleIndex "directive" (RestBlockParser.DEFAULT_RULES ["paragraph"])
      < ruleIndex "oneline_directive" (RestBlockParser.DEFAULT_RULES ["paragraph"])
    ∧ (RestBlockParser.parse_oneline_directive ".. note::".toList
        = ⟨"directive", ".. note::"⟩
      ∧ RestBlockParser.parse_oneline_directive ".. note::".toList
        = RestBlockParser.parse_directive ".. note::".toList
      ∧ ∃ rest, ".. note::".toList ++ rest = ".. note::\nmore".toList
          ∧ (rest = [] ∨ ∃ r', rest = '\n' :: r')
          ∧ (".. note::".toList).all (· ≠ '\n')) :=
  ⟨oneline_directive_order_and_shape.1 ["paragraph"] (by decide) (by decide),
   oneline_directive_order_and_shape.2.2 ".. note::\nmore".toList
     ".. note::".toList (by decide)⟩

/-- `textTake` consumes an initial segment of its input. -/
theorem textTake_append (s : List Char) :
    ∃ r, RestInlineParser.textTake s ++ r = s := by
  induction s with
  | nil => exact ⟨[], rfl⟩
  | cons d rest ih =>
    by_cases h : RestInlineParser.textStopHere (d :: rest)
    · exact ⟨d :: rest, by simp [RestInlineParser.textTake, h]⟩
    · obtain ⟨r, hr⟩ := ih
      exact ⟨r, by simp [RestInlineParser.textTake, h, hr]⟩

/-- Claim C5: for every `EOL_LITERAL_MARKER` match the handler's marker is
`":"` exactly when the optional leading-whitespace group did not match and
`""` exactly when it did; concretely the leftmost match in `"see::"` carries
no whitespace group and yields marker `":"`, while in `"see ::"` the group
holds the space and the marker is `""`. -/
theorem eol_literal_marker_asymmetry :
    (∀ (s : List Char) (g : Option (List Char)),
      RestInlineParser.eolMatchAt s = some g →
      RestInlineParser.parse_eol_literal_marker g
          = ("eol_literal_marker", if g.isNone then ":" else "")
      ∧ ((RestInlineParser.parse_eol_literal_marker g).2 = ":" ↔ g = none)
      ∧ ((RestInlineParser.parse_eol_literal_marker g).2 = "" ↔ ∃ w, g = some w))
    ∧ RestInlineParser.eolSearch "see::".toList = some none
    ∧ (RestInlineParser.parse_eol_literal_marker none).2 = ":"
    ∧ RestInlineParser.eolSearch "see ::".toList = some (some [' '])
    ∧ (RestInlineParser.parse_eol_literal_marker (some [' '])).2 = "" := by
  refine ⟨?_, by decide, by decide, by decide, by decide⟩
  intro s g _
  refine ⟨rfl, ?_, ?_⟩ <;> cases g <;>
    simp [RestInlineParser.parse_eol_literal_marker]

/-- Witness for the C5 theorem at the concrete span `"::"`. -/
theorem eol_literal_marker_asymmetry_witness :
    RestInlineParser.parse_eol_literal_marker none
        = ("eol_literal_marker", if (none : Option (List Char)).isNone then ":" else "")
    ∧ ((RestInlineParser.parse_eol_literal_marker none).2 = ":"
        ↔ (none : Option (List Char)) = none)
    ∧ ((RestInlineParser.parse_eol_literal_marker none).2 = ""
        ↔ ∃ w, (none : Option (List Char)) = some w) :=
  eol_literal_marker_asymmetry.1 "::".toList none (by decide)

/-- Claim C6: the plain-text fallback consumes at least one character at
every cursor position — `TEXT` fails only on an empty remainder, and on any
nonempty remainder it matches a nonempty initial segment of the input, so no
character is silently dropped and the engine step makes forward progress. -/
theorem text_fallback_progress :
    RestInlineParser.textMatch [] = none
    ∧ (∀ s : List Char, s ≠ [] →
        ∃ t, RestInlineParser.textMatch s = some t ∧ 1 ≤ t.length
          ∧ ∃ r, t ++ r = s) := by
  refine ⟨rfl, ?_⟩
  intro s hs
  cases s with
  | nil => exact absurd rfl hs
  | cons c rest =>
    refine ⟨c :: RestInlineParser.textTake rest, rfl, by simp, ?_⟩
    obtain ⟨r, hr⟩ := textTake_append rest
    exact ⟨r, by simp [hr]⟩

/-- Witness for the C6 theorem at the concrete span `"::"`. -/
theorem text_fallback_progress_witness :
    ∃ t, RestInlineParser.textMatch "::".toList = some t ∧ 1 ≤ t.length
      ∧ ∃ r, t ++ r = "::".toList :=
  text_fallback_progress.2 "::".toList (by decide)

/-- A successful `mathScan` found its expression followed by the `$`-backtick
terminator: the scanned input splits as expression, `$`, backtick, rest. -/
theorem mathScan_shape :
    ∀ (s e : List Char), RestInlineParser.mathScan s = some e →
      ∃ rest, s = e ++ '$' :: '`' :: rest := by
  intro s
  induction s with
  | nil => intro e h; simp [RestInlineParser.mathScan] at h
  | cons c rest ih =>
    intro e h
    simp only [RestInlineParser.mathScan] at h
    by_cases h1 : c = '$' ∧ rest.head? = some '`'
    · rw [if_pos h1] at h
      cases Option.some.inj h
      obtain ⟨hc, hh⟩ := h1
      subst hc
      exact ⟨rest.tail, by rw [head_shape hh]; rfl⟩
    · rw [if_neg h1] at h
      by_cases h2 : c = '\n'
      · rw [if_pos h2] at h; cases h
      · rw [if_neg h2] at h
        obtain ⟨e', he', rfl⟩ := Option.map_eq_some'.mp h
        obtain ⟨rr, hrr⟩ := ih e' he'
        exact ⟨rr, by rw [hrr]; rfl⟩

/-- Claim C9: every `INLINE_MATH` match is of the form backtick, `$`,
expression, `$`, backtick, and the handler produces `("inline_math", expr)`
with `expr` exactly the captured text strictly between the `$` delimiters;
concretely the backtick-delimited `$x^2$` yields `("inline_math", "x^2")`. -/
theorem inline_math_extraction :
    (∀ s e : List Char, RestInlineParser.inlineMathMatch s = some e →
      RestInlineParser.parse_inline_math e = ("inline_math", String.mk e)
      ∧ ∃ rest, s = '`' :: '$' :: (e ++ '$' :: '`' :: rest))
    ∧ RestInlineParser.inlineMathMatch "`$x^2$`".toList = some "x^2".toList
    ∧ RestInlineParser.parse_inline_math "x^2".toList = ("inline_math", "x^2") := by
  refine ⟨?_, by decide, by decide⟩
  intro s e h
  simp only [RestInlineParser.inlineMathMatch] at h
  by_cases hc : s.take 2 = ['`', '$']
  · rw [if_pos hc] at h
    obtain ⟨rest, hrest⟩ := mathScan_shape (s.drop 2) e h
    exact ⟨rfl, rest, by rw [take_two_shape hc, hrest]⟩
  · rw [if_neg hc] at h
    cases h

/-- Witness for the C9 theorem at the concrete input. -/
theorem inline_math_extraction_witness :
    RestInlineParser.parse_inline_math "x^2".toList
        = ("inline_math", String.mk "x^2".toList)
    ∧ ∃ rest, "`$x^2$`".toList
        = '`' :: '$' :: ("x^2".toList ++ '$' :: '`' :: rest) :=
  inline_math_extraction.1 "`$x^2$`".toList "x^2".toList (by decide)

/-- A successful `backtickScan` found its run followed by a backtick. -/
theorem backtickScan_shape :
    ∀ (s i : List Char), RestInlineParser.backtickScan s = some i →
      ∃ rest, s = i ++ '`' :: rest := by
  intro s
  induction s with
  | nil => intro i h; simp [RestInlineParser.backtickScan] at h
  | cons c rest ih =>
    intro i h
    simp only [RestInlineParser.backtickScan] at h
    by_cases h1 : c = '`'
    · rw [if_pos h1] at h
      cases Option.some.inj h
      subst h1
      exact ⟨rest, rfl⟩
    · rw [if_neg h1] at h
      by_cases h2 : c = '\n'
      · rw [if_pos h2] at h; cases h
      · rw [if_neg h2] at h
        obtain ⟨i', hi', rfl⟩ := Option.map_eq_some'.mp h
        obtain ⟨rr, hrr⟩ := ih i' hi'
        exact ⟨rr, by rw [hrr]; rfl⟩

/-- A successful `colonScan` found its run followed by a colon. -/
theorem colonScan_shape :
    ∀ (s i : List Char), RestInlineParser.colonScan s = some i →
      ∃ rest, s = i ++ ':' :: rest := by
  intro s
  induction s with
  | nil => intro i h; simp [RestInlineParser.colonScan] at h
  | cons c rest ih =>
    intro i h
    simp only [RestInlineParser.colonScan] at h
    by_cases h1 : c = ':'
    · rw [if_pos h1] at h
      cases Option.some.inj h
      subst h1
      exact ⟨rest, rfl⟩
    · rw [if_neg h1] at h
      by_cases h2 : c = '\n'
      · rw [if_pos h2] at h; cases h
      · rw [if_neg h2] at h
        obtain ⟨i', hi', rfl⟩ := Option.map_eq_some'.mp h
        obtain ⟨rr, hrr⟩ := ih i' hi'
        exact ⟨rr, by rw [hrr]; rfl⟩

/-- A successful `roleAlt1Scan` consumed an initial segment of its input. -/
theorem roleAlt1Scan_shape :
    ∀ (b t : List Char), RestInlineParser.roleAlt1Scan b = some t →
      ∃ rest, b = t ++ rest := by
  intro b
  induction b with
  | nil => intro t h; simp [RestInlineParser.roleAlt1Scan] at h
  | cons c rest ih =>
    intro t h
    simp only [RestInlineParser.roleAlt1Scan] at h
    cases ha : (if c = ':' ∧ rest.head? = some '`' then
        (RestInlineParser.backtickScan (rest.drop 1)).map
          (fun inn => ':' :: '`' :: (inn ++ ['`']))
      else none) with
    | some v =>
      rw [ha] at h
      have hv : v = t := by simpa [Option.orElse] using h
      by_cases hcnd : c = ':' ∧ rest.head? = some '`'
      · rw [if_pos hcnd] at ha
        obtain ⟨inn, hinn, hv2⟩ := Option.map_eq_some'.mp ha
        obtain ⟨rr, hrr⟩ := backtickScan_shape (rest.drop 1) inn hinn
        obtain ⟨hc1, hh⟩ := hcnd
        subst hc1
        refine ⟨rr, ?_⟩
        rw [← hv, ← hv2, head_shape hh]
        have htail : rest.tail = inn ++ '`' :: rr := by
          rw [← List.drop_one, hrr]
        rw [htail]
        simp
      · rw [if_neg hcnd] at ha; cases ha
    | none =>
      rw [ha] at h
      have h' : (if c = '\n' then none
          else (RestInlineParser.roleAlt1Scan rest).map (c :: ·)) = some t := by
        simpa [Option.orElse] using h
      by_cases h2 : c = '\n'
      · rw [if_pos h2] at h'; cases h'
      · rw [if_neg h2] at h'
        obtain ⟨t', ht', rfl⟩ := Option.map_eq_some'.mp h'
        obtain ⟨rr, hrr⟩ := ih t' ht'
        exact ⟨rr, by rw [hrr]; rfl⟩

/-- A successful `roleAlt2` consumed an initial segment of its input. -/
theorem roleAlt2_shape (s m : List Char)
    (h : RestInlineParser.roleAlt2 s = some m) :
    ∃ rest, s = m ++ rest := by
  simp only [RestInlineParser.roleAlt2] at h
  by_cases h1 : s.head? = some '`'
  · rw [if_pos h1] at h
    by_cases h2 : ((s.drop 1).takeWhile (· ≠ '`')).isEmpty
    · rw [if_pos h2] at h; cases h
    · rw [if_neg h2] at h
      by_cases h3 : ((s.drop 1).drop
          ((s.drop 1).takeWhile (· ≠ '`')).length).take 2 = ['`', ':']
      · rw [if_pos h3] at h
        obtain ⟨role, hrole, hm⟩ := Option.map_eq_some'.mp h
        obtain ⟨rr, hrr⟩ := colonScan_shape _ role hrole
        refine ⟨rr, ?_⟩
        have hsplit := take_two_shape h3
        have h4 : s.drop 1 = (s.drop 1).takeWhile (· ≠ '`') ++
            ('`' :: ':' :: (role ++ ':' :: rr)) := by
          conv_lhs =>
            rw [← List.takeWhile_append_dropWhile (p := (· ≠ '`')) (l := s.drop 1)]
          rw [← drop_takeWhile_length (· ≠ '`') (s.drop 1), hsplit, hrr]
        have hs1 : s = '`' :: s.drop 1 := by
          rw [List.drop_one]; exact head_shape h1
        calc s = '`' :: s.drop 1 := hs1
          _ = '`' :: ((s.drop 1).takeWhile (· ≠ '`') ++
                ('`' :: ':' :: (role ++ ':' :: rr))) := congrArg (List.cons '`') h4
          _ = ('`' :: (s.drop 1).takeWhile (· ≠ '`') ++ '`' :: ':' :: role ++ [':'])
                ++ rr := by simp
          _ = m ++ rr := by rw [hm]
      · rw [if_neg h3] at h; cases h
  · rw [if_neg h1] at h; cases h

/-- A successful `REST_ROLE` match consumed an initial segment of its
input. -/
theorem restRoleMatch_shape (s m : List Char)
    (h : RestInlineParser.restRoleMatch s = some m) :
    ∃ rest, s = m ++ rest := by
  simp only [RestInlineParser.restRoleMatch] at h
  cases ha : (if s.head? = some ':' then
      (RestInlineParser.roleAlt1Scan (s.drop 1)).map (':' :: ·) else none) with
  | some v =>
    rw [ha] at h
    have hv : v = m := by simpa [Option.orElse] using h
    by_cases h1 : s.head? = some ':'
    · rw [if_pos h1] at ha
      obtain ⟨t, ht, hv2⟩ := Option.map_eq_some'.mp ha
      obtain ⟨rr, hrr⟩ := roleAlt1Scan_shape (s.drop 1) t ht
      refine ⟨rr, ?_⟩
      rw [← hv, ← hv2, head_shape h1, ← List.drop_one, hrr]
      rfl
    · rw [if_neg h1] at ha; cases ha
  | none =>
    rw [ha] at h
    have h' : RestInlineParser.roleAlt2 s = some m := by
      simpa [Option.orElse] using h
    exact roleAlt2_shape s m h'

/-- Claim C10: every `REST_ROLE` match is passed through opaquely — the
handler returns `("rest_role", raw)` where `raw` is the entire matched text,
an initial segment of the input, with no decomposition; concretely the input
`:py:func:` with backtick-quoted `foo` is one single element carrying the
whole matched text. -/
theorem rest_role_passthrough :
    (∀ s m : List Char, RestInlineParser.restRoleMatch s = some m →
      RestInlineParser.parse_rest_role m = ("rest_role", String.mk m)
      ∧ ∃ rest, s = m ++ rest)
    ∧ RestInlineParser.restRoleMatch ":py:func:`foo`".toList
        = some ":py:func:`foo`".toList
    ∧ RestInlineParser.parse_rest_role ":py:func:`foo`".toList
        = ("rest_role", ":py:func:`foo`") := by
  refine ⟨?_, by decide, by decide⟩
  intro s m h
  exact ⟨rfl, restRoleMatch_shape s m h⟩

/-- Witness for the C10 theorem at the concrete input. -/
theorem rest_role_passthrough_witness :
    RestInlineParser.parse_rest_role ":py:func:`foo`".toList
        = ("rest_role", String.mk ":py:func:`foo`".toList)
    ∧ ∃ rest, ":py:func:`foo`".toList = ":py:func:`foo`".toList ++ rest :=
  rest_role_passthrough.1 ":py:func:`foo`".toList ":py:func:`foo`".toList
    (by decide)

/-- Claim C3, counterexample: the source's TEXT stop class also contains a
single space (absent from the claim's list), so on `"ab cd"` the plain-text
match stops before the space after `"ab"`, while a match governed by the
claim's stop list would run to the end of the span. -/
theorem text_stop_set_cex :
    RestInlineParser.textMatch "ab cd".toList = some "ab".toList
    ∧ specTextMatch "ab cd".toList = some "ab cd".toList
    ∧ RestInlineParser.textMatch "ab cd".toList ≠ specTextMatch "ab cd".toList
    ∧ RestInlineParser.isStopChar ' ' = true
    ∧ specStopChar ' ' = false :=
  ⟨by decide, by decide, by decide, by decide, by decide⟩

/-- The extension loop of TEXT stops exactly at the first position where the
lookahead holds. -/
theorem textTake_spec :
    ∀ rest : List Char,
      RestInlineParser.textTake rest
          = rest.take (RestInlineParser.textTake rest).length
      ∧ RestInlineParser.textStopHere
          (rest.drop (RestInlineParser.textTake rest).length) = true
      ∧ ∀ i, i < (RestInlineParser.textTake rest).length →
          RestInlineParser.textStopHere (rest.drop i) = false := by
  intro rest
  induction rest with
  | nil =>
    refine ⟨rfl, rfl, ?_⟩
    intro i hi
    simp [RestInlineParser.textTake] at hi
  | cons d r ih =>
    by_cases h : RestInlineParser.textStopHere (d :: r)
    · refine ⟨?_, ?_, ?_⟩
      · simp [RestInlineParser.textTake, h]
      · simp [RestInlineParser.textTake, h]
      · intro i hi
        simp [RestInlineParser.textTake, h] at hi
    · obtain ⟨ih1, ih2, ih3⟩ := ih
      have hT : RestInlineParser.textTake (d :: r)
          = d :: RestInlineParser.textTake r := by
        simp [RestInlineParser.textTake, h]
      refine ⟨?_, ?_, ?_⟩
      · rw [hT]
        simp only [List.length_cons, List.take_succ_cons]
        exact congrArg (List.cons d) ih1
      · rw [hT]
        simpa using ih2
      · intro i hi
        cases i with
        | zero =>
          simpa using (by simpa using h : RestInlineParser.textStopHere (d :: r) = false)
        | succ j =>
          rw [hT] at hi
          simp only [List.length_cons, Nat.succ_lt_succ_iff] at hi
          simpa using ih3 j hi

/-- Claim C3 (amended): the longest plain-text match ends exactly before the
first position, after the mandatory first character, where the TEXT lookahead
holds — the character class `\`, `<`, `!`, `[`, `:`, `_`, `*`, backtick, `~`
and the single space, a bare `http://` or `https://`, or the end of the span
(also just before a span-final newline); the ` {2,}\n` alternative is
subsumed by the single space.  No other position terminates the
accumulation. -/
theorem text_boundary_characterization :
    ∀ s t : List Char, RestInlineParser.textMatch s = some t →
      1 ≤ t.length ∧ t = s.take t.length
      ∧ RestInlineParser.textStopHere (s.drop t.length) = true
      ∧ ∀ i, 1 ≤ i → i < t.length →
          RestInlineParser.textStopHere (s.drop i) = false := by
  intro s t h
  cases s with
  | nil => cases h
  | cons c rest =>
    have ht : t = c :: RestInlineParser.textTake rest :=
      (Option.some.inj h).symm
    obtain ⟨h1, h2, h3⟩ := textTake_spec rest
    refine ⟨by rw [ht]; simp, ?_, ?_, ?_⟩
    · rw [ht]
      simp only [List.length_cons, List.take_succ_cons]
      exact congrArg (List.cons c) h1
    · rw [ht]
      simpa using h2
    · intro i hi1 hi2
      cases i with
      | zero => omega
      | succ j =>
        rw [ht] at hi2
        simp only [List.length_cons, Nat.succ_lt_succ_iff] at hi2
        simpa using h3 j hi2

/-- Witness for the amended C3 theorem at the concrete input `"ab cd"`. -/
theorem text_boundary_characterization_witness :
    1 ≤ ("ab".toList).length
    ∧ "ab".toList = ("ab cd".toList).take ("ab".toList).length
    ∧ RestInlineParser.textStopHere (("ab cd".toList).drop ("ab".toList).length) = true
    ∧ ∀ i, 1 ≤ i → i < ("ab".toList).length →
        RestInlineParser.textStopHere (("ab cd".toList).drop i) = false :=
  text_boundary_characterization "ab cd".toList "ab".toList (by decide)

/-- Claim C2, counterexample: on a directive block at end-of-input with no
following line starting in column 0 with a non-whitespace character, the
source's multi-line `DIRECTIVE` pattern does not match at all (its `\n(?=\S)`
boundary is not satisfied by end-of-input), while the spec-described matcher
that treats end-of-input as the boundary recognizes the whole span; the
`ONELINE_DIRECTIVE` fallback claims only the first line. -/
theorem directive_eoi_cex :
    RestBlockParser.directiveMatch ".. note::\n   body".toList = none
    ∧ specDirectiveMatch ".. note::\n   body".toList
        = some ".. note::\n   body".toList
    ∧ RestBlockParser.onelineDirectiveMatch ".. note::\n   body".toList
        = some ".. note::".toList :=
  ⟨by decide, by decide, by decide⟩

/-- Without a newline-then-non-whitespace boundary the directive scanner
finds nothing. -/
theorem scanToBoundary_none_of_no_boundary :
    ∀ b : List Char, hasBoundary b = false →
      RestBlockParser.scanToBoundary b = none := by
  intro b
  induction b with
  | nil => intro _; rfl
  | cons c rest ih =>
    intro h
    simp only [hasBoundary, Bool.or_eq_false_iff] at h
    obtain ⟨h1, h2⟩ := h
    have hcond : ¬ (c = '\n' ∧ rest ≠ [] ∧ isPyWhitespace (rest.headD ' ') = false) := by
      rintro ⟨hc, hne, hws⟩
      rw [hc] at h1
      simp at h1
      have h1' := h1 hne
      rw [List.headD_eq_head?] at hws
      rw [h1'] at hws
      cases hws
    simp only [RestBlockParser.scanToBoundary]
    rw [if_neg hcond, ih h2]
    rfl

/-- Claim C2 (amended): on every directive-shaped input (optional spaces then
`..`) in which no newline is followed by a non-whitespace character — a
directive block running to end-of-input — the multi-line directive rule does
not match (end-of-input does not satisfy its boundary lookahead), and the
engine still terminates the span deterministically: the `oneline_directive`
rule matches and claims exactly the first line of the block.  Both matchers
are total functions, so matching terminates on every input. -/
theorem directive_eoi_behavior :
    ∀ s : List Char,
      (s.dropWhile (· = ' ')).take 2 = ['.', '.'] →
      hasBoundary ((s.dropWhile (· = ' ')).drop 2) = false →
      RestBlockParser.directiveMatch s = none
      ∧ RestBlockParser.onelineDirectiveMatch s
          = some (s.takeWhile (· = ' ') ++ '.' :: '.' ::
              (((s.dropWhile (· = ' ')).drop 2).takeWhile (· ≠ '\n'))) := by
  intro s hshape hnb
  constructor
  · simp only [RestBlockParser.directiveMatch]
    rw [drop_takeWhile_length, if_pos hshape,
      scanToBoundary_none_of_no_boundary _ hnb]
    rfl
  · simp only [RestBlockParser.onelineDirectiveMatch]
    rw [drop_takeWhile_length, if_pos hshape]

/-- Witness for the amended C2 theorem at the concrete end-of-input block. -/
theorem directive_eoi_behavior_witness :
    RestBlockParser.directiveMatch ".. note::\n   body".toList = none
    ∧ RestBlockParser.onelineDirectiveMatch ".. note::\n   body".toList
        = some ((".. note::\n   body".toList).takeWhile (· = ' ') ++ '.' :: '.' ::
            (((".. note::\n   body".toList).dropWhile (· = ' ')).drop 2).takeWhile
              (· ≠ '\n')) :=
  directive_eoi_behavior ".. note::\n   body".toList (by decide) (by decide)

theorem takeWhile_all {p : Char → Bool} :
    ∀ l : List Char, (∀ c ∈ l, p c = true) → l.takeWhile p = l := by
  intro l
  induction l with
  | nil => intro _; rfl
  | cons a l' ih =>
    intro h
    have ha : p a = true := h a (List.mem_cons_self _ _)
    rw [List.takeWhile_cons, if_pos ha,
      ih (fun c hc => h c (List.mem_cons_of_mem _ hc))]

theorem takeWhile_append_stop {p : Char → Bool} :
    ∀ (l : List Char) (x : Char) (r : List Char),
      (∀ c ∈ l, p c = true) → p x = false →
      (l ++ x :: r).takeWhile p = l := by
  intro l
  induction l with
  | nil => intro x r _ hx; simp [List.takeWhile_cons, hx]
  | cons a l' ih =>
    intro x r hall hx
    have ha : p a = true := hall a (List.mem_cons_self _ _)
    simp only [List.cons_append, List.takeWhile_cons, ha, if_true]
    rw [ih x r (fun c hc => hall c (List.mem_cons_of_mem _ hc)) hx]

/-- Every character of a wellformed tag name is a tag character. -/
theorem tagNameOk_chars (name : List Char)
    (h : RestInlineParser.tagNameOk name = true) :
    ∀ c ∈ name, RestInlineParser.isTagChar c = true := by
  cases name with
  | nil => cases h
  | cons n0 nr =>
    simp only [RestInlineParser.tagNameOk, Bool.and_eq_true, List.all_eq_true] at h
    obtain ⟨h1, h2⟩ := h
    intro c hc
    rcases List.mem_cons.mp hc with rfl | hc'
    · simp [RestInlineParser.isTagChar, h1]
    · exact h2 c hc'

/-- `tagNameScan` on a wellformed name followed by a non-tag character takes
exactly the name. -/
theorem tagNameScan_append (n0 x : Char) (nr r' : List Char)
    (h1 : RestInlineParser.isTagStart n0 = true)
    (h2 : ∀ c ∈ nr, RestInlineParser.isTagChar c = true)
    (hx : RestInlineParser.isTagChar x = false) :
    RestInlineParser.tagNameScan (n0 :: (nr ++ x :: r'))
      = some (n0 :: nr, x :: r') := by
  simp only [RestInlineParser.tagNameScan]
  rw [if_pos h1, takeWhile_append_stop nr x r' h2 hx, List.drop_left]

/-- `openTagScan` on the constructed span `<name>` + rest. -/
theorem openTagScan_span (name rest0 : List Char)
    (h : RestInlineParser.tagNameOk name = true) :
    RestInlineParser.openTagScan ('<' :: (name ++ ('>' :: rest0)))
      = some (name, '<' :: (name ++ ['>']), rest0) := by
  cases name with
  | nil => cases h
  | cons n0 nr =>
    simp only [RestInlineParser.tagNameOk, Bool.and_eq_true, List.all_eq_true] at h
    obtain ⟨h1, h2⟩ := h
    simp only [RestInlineParser.openTagScan, List.head?_cons]
    rw [if_true]
    have hd : ('<' :: ((n0 :: nr) ++ ('>' :: rest0))).drop 1
        = n0 :: (nr ++ '>' :: rest0) := rfl
    rw [hd, tagNameScan_append n0 '>' nr rest0 h1 h2 (by decide)]
    have hatt : ('>' :: rest0).takeWhile RestInlineParser.isAttrChar = [] := by
      rw [List.takeWhile_cons]
      simp [RestInlineParser.isAttrChar]
    simp only [hatt, List.length_nil, List.drop_zero, List.head?_cons,
      List.append_nil]
    rw [if_pos (by exact ⟨trivial, by decide⟩)]
    simp

/-- `closeTagScan` on the constructed close tag `</name>` consumes all of
it. -/
theorem closeTagScan_close (name : List Char)
    (h : RestInlineParser.tagNameOk name = true) :
    RestInlineParser.closeTagScan ('<' :: '/' :: (name ++ ['>']))
      = some ('<' :: '/' :: (name ++ ['>']), []) := by
  cases name with
  | nil => cases h
  | cons n0 nr =>
    simp only [RestInlineParser.tagNameOk, Bool.and_eq_true, List.all_eq_true] at h
    obtain ⟨h1, h2⟩ := h
    simp only [RestInlineParser.closeTagScan]
    rw [if_pos (by simp)]
    have hd : ('<' :: '/' :: ((n0 :: nr) ++ ['>'])).drop 2
        = n0 :: (nr ++ '>' :: []) := rfl
    rw [hd, tagNameScan_append n0 '>' nr [] h1 h2 (by decide)]
    have hws : ('>' :: ([] : List Char)).takeWhile isPyWhitespace = [] := by
      rw [List.takeWhile_cons]
      simp [isPyWhitespace]
    simp only [hws, List.length_nil, List.drop_zero, List.head?_cons,
      List.append_nil]
    rw [if_true]
    simp

/-- On newline-free text the `(.*)` horizon is the whole text. -/
theorem lineLen_eq_length (l : List Char) (h : '\n' ∉ l) :
    RestInlineParser.lineLen l = l.length := by
  unfold RestInlineParser.lineLen
  rw [takeWhile_all l ?_]
  intro c hc
  simp only [decide_eq_true_eq]
  intro hcc
  exact h (hcc ▸ hc)

/-- The cut at the boundary between contents and the constructed close tag
succeeds and consumes everything. -/
theorem closeAt_boundary (name contents : List Char)
    (hn : RestInlineParser.tagNameOk name = true)
    (hlast : contents.getLast? ≠ some '\\') :
    RestInlineParser.closeAt '>' (contents ++ ('<' :: '/' :: (name ++ ['>'])))
        contents.length
      = some (contents ++ ('<' :: '/' :: (name ++ ['>']))).length := by
  simp only [RestInlineParser.closeAt]
  rw [List.take_left, List.drop_left]
  have hlb : ¬ (contents.getLast?.getD '>' = '\\') := by
    cases hgl : contents.getLast? with
    | none => simp
    | some c =>
      simp only [Option.getD_some]
      intro hcc
      exact hlast (by rw [hgl, hcc])
  rw [if_neg hlb, closeTagScan_close name hn]
  simp [List.length_append]

/-- Every cut strictly past the boundary fails: no close tag starts inside
the constructed close tag after its `<`. -/
theorem closeAt_past (prev : Char) (name contents : List Char)
    (hn : RestInlineParser.tagNameOk name = true) :
    ∀ k, contents.length < k →
      RestInlineParser.closeAt prev
        (contents ++ ('<' :: '/' :: (name ++ ['>']))) k = none := by
  intro k hk
  have hmem : '<' ∉ ('/' :: (name ++ ['>'])) := by
    intro hm
    rcases List.mem_cons.mp hm with h | h
    · exact absurd h (by decide)
    · rcases List.mem_append.mp h with h' | h'
      · exact absurd (tagNameOk_chars name hn '<' h') (by decide)
      · exact absurd (List.mem_singleton.mp h') (by decide)
  obtain ⟨i, hi⟩ : ∃ i, k = contents.length + (i + 1) :=
    ⟨k - contents.length - 1, by omega⟩
  subst hi
  have hdrop : (contents ++ ('<' :: '/' :: (name ++ ['>']))).drop
      (contents.length + (i + 1)) = ('/' :: (name ++ ['>'])).drop i := by
    rw [← List.drop_drop, List.drop_left]
    rfl
  have hscan : RestInlineParser.closeTagScan
      (('/' :: (name ++ ['>'])).drop i) = none := by
    have hcond : ¬ ((('/' :: (name ++ ['>'])).drop i).take 2 = ['<', '/']) := by
      intro hc
      have hsh := take_two_shape hc
      have hin : '<' ∈ ('/' :: (name ++ ['>'])).drop i := by
        rw [hsh]; exact List.mem_cons_self _ _
      exact hmem (List.drop_subset i _ hin)
    simp only [RestInlineParser.closeTagScan]
    rw [if_neg hcond]
  simp only [RestInlineParser.closeAt, hdrop, hscan]
  simp

/-- The greedy search returns the boundary cut when it succeeds and all
larger cuts fail. -/
theorem closeSearch_finds (prev : Char) (rest : List Char) (m v : Nat) :
    ∀ K, m ≤ K →
      RestInlineParser.closeAt prev rest m = some v →
      (∀ j, m < j → RestInlineParser.closeAt prev rest j = none) →
      RestInlineParser.closeSearch prev rest K = some v := by
  intro K
  induction K with
  | zero =>
    intro hm hsome _
    have hz : m = 0 := Nat.le_zero.mp hm
    subst hz
    simpa [RestInlineParser.closeSearch] using hsome
  | succ k ih =>
    intro hm hsome hnone
    by_cases hmk : m = k + 1
    · subst hmk
      simp [RestInlineParser.closeSearch, hsome]
    · have hm' : m ≤ k := by omega
      have htop : RestInlineParser.closeAt prev rest (k + 1) = none :=
        hnone (k + 1) (by omega)
      simp only [RestInlineParser.closeSearch, htop]
      simpa [Option.orElse] using ih hm' hsome hnone

/-- Claim C7, counterexample: a span made of an open tag, textual contents
and a matching close tag is not captured when the contents contain a newline
(the `(.*)` of the open-span alternative does not cross lines) or end with a
backslash (the `(?<!\\)` lookbehind refuses the close tag); on both inputs
`INLINE_HTML` does not match at all. -/
theorem inline_html_span_cex :
    RestInlineParser.inlineHtmlMatch "<b>a\nb</b>".toList = none
    ∧ RestInlineParser.inlineHtmlMatch "<b>a\\</b>".toList = none :=
  ⟨by decide, by decide⟩

/-- Claim C7 (amended): the open-span alternative of `INLINE_HTML` captures
an open tag, its contents and the close tag as one single element — for every
wellformed tag name and contents that lie on one line and do not end in a
backslash, the whole span `<name>` ++ contents ++ `</name>` is matched as one
group-0 match; and a self-closing tag, a processing instruction, a doctype
and a CDATA section are likewise each captured as a single opaque match. -/
theorem inline_html_span_capture :
    (∀ name contents : List Char,
      RestInlineParser.tagNameOk name = true →
      '\n' ∉ contents →
      contents.getLast? ≠ some '\\' →
      RestInlineParser.inlineHtmlMatch
          ('<' :: (name ++ ('>' :: (contents ++ ('<' :: '/' :: (name ++ ['>']))))))
        = some ('<' :: (name ++ ('>' ::
            (contents ++ ('<' :: '/' :: (name ++ ['>'])))))))
    ∧ RestInlineParser.inlineHtmlMatch "<br/>".toList = some "<br/>".toList
    ∧ RestInlineParser.inlineHtmlMatch "<?php x ?>".toList
        = some "<?php x ?>".toList
    ∧ RestInlineParser.inlineHtmlMatch "<!DOCTYPE html>".toList
        = some "<!DOCTYPE html>".toList
    ∧ RestInlineParser.inlineHtmlMatch "<![CDATA[x]]>".toList
        = some "<![CDATA[x]]>".toList := by
  refine ⟨?_, by decide, by decide, by decide, by decide⟩
  intro name contents hn hnl hlast
  have hopen := openTagScan_span name
    (contents ++ ('<' :: '/' :: (name ++ ['>']))) hn
  have hnl2 : '\n' ∉ (contents ++ ('<' :: '/' :: (name ++ ['>']))) := by
    intro hm
    rcases List.mem_append.mp hm with h | h
    · exact hnl h
    · rcases List.mem_cons.mp h with h' | h'
      · exact absurd h' (by decide)
      rcases List.mem_cons.mp h' with h'' | h''
      · exact absurd h'' (by decide)
      rcases List.mem_append.mp h'' with h3 | h3
      · exact absurd (tagNameOk_chars name hn '\n' h3) (by decide)
      · exact absurd (List.mem_singleton.mp h3) (by decide)
  have hline : RestInlineParser.lineLen (contents ++ ('<' :: '/' :: (name ++ ['>'])))
      = (contents ++ ('<' :: '/' :: (name ++ ['>']))).length :=
    lineLen_eq_length _ hnl2
  have hsearch : RestInlineParser.closeSearch '>'
      (contents ++ ('<' :: '/' :: (name ++ ['>'])))
      (RestInlineParser.lineLen (contents ++ ('<' :: '/' :: (name ++ ['>']))))
      = some (contents ++ ('<' :: '/' :: (name ++ ['>']))).length := by
    rw [hline]
    exact closeSearch_finds '>' _ contents.length
      (contents ++ ('<' :: '/' :: (name ++ ['>']))).length
      (contents ++ ('<' :: '/' :: (name ++ ['>']))).length
      (by rw [List.length_append]; omega)
      (closeAt_boundary name contents hn hlast)
      (fun j hj => closeAt_past '>' name contents hn j hj)
  simp only [RestInlineParser.inlineHtmlMatch, hopen, hsearch, List.take_length]
  simp [Option.orElse]

/-- Witness for the amended C7 theorem at the concrete span. -/
theorem inline_html_span_capture_witness :
    RestInlineParser.inlineHtmlMatch
        ('<' :: (['b'] ++ ('>' :: ("text".toList ++ ('<' :: '/' :: (['b'] ++ ['>']))))))
      = some ('<' :: (['b'] ++ ('>' ::
          ("text".toList ++ ('<' :: '/' :: (['b'] ++ ['>'])))))) :=
  inline_html_span_capture.1 ['b'] "text".toList (by decide) (by decide) (by decide)
